import Mathlib

set_option maxRecDepth 10000

/-!
# PEhash (totalhash service) — verification of the fingerprint pipeline

Shallow embedding of `_get_pehash` from `totalhash_service/__init__.py`
(Team Cymru PEhash as wrapped for CRITs).  The Python code manipulates
`bitstring.BitArray` values; we model a `BitArray` as a `List Bool` with the
most-significant bit first, which is exactly the indexing order used by
`bitstring` slices.

External libraries are modelled as follows:
* `bitstring.BitArray(hex(v))` — `hexBits v`: the minimal hexadecimal digit
  string of `v` read as 4 bits per digit.
* `.tobytes()` — `padToByte` / `tobytes`: right-pad with zero bits to the next
  byte boundary (then regroup into bytes).
* `string.zfill(bits, 32)` — `zfill 32`: left-pad the bit character string
  with zeros up to length 32 (no-op when already at least 32 long).
* `a ^ b` on bitstrings — `xorBits`: bitwise xor, raising `ValueError`
  (modelled as `Option.none`) when the two lengths differ.
* `bz2.compress` — only the length of its output is ever used; the pipeline is
  parametric in a `compressLen : List ℕ → ℕ` function.
* `k = bz2_size / size` (Python 3-style true division via
  `from __future__ import division`) followed by
  `bitstring.BitArray(float=k, length=32)` — the exact quotient is carried as
  a numerator/denominator pair of naturals, rounded to an IEEE-754 binary64
  value (`roundPair 53`, round to nearest, ties to even) and then encoded as
  a binary32 bit pattern (`float32bits`); the model covers non-negative
  values in the normal range (plus zero), which is where every quotient
  arising here lives.
* `hashlib.sha1(...).hexdigest()` — `sha1` / `toHex`: a direct implementation
  of SHA-1 over a byte list with lowercase hexadecimal output.
-/

namespace PEHash

/-! ## Bit-string infrastructure -/

/-- The `w`-bit big-endian (most-significant-first) bit list of `n`. -/
def natBits (w n : ℕ) : List Bool :=
  (List.range w).map (fun i => n.testBit (w - 1 - i))

/-- Number of binary digits of `n/2^k` consumed structurally (fuel form of
`⌊log₂⌋`, kernel-reducible). -/
def bitLenAux : ℕ → ℕ → ℕ
  | 0, _ => 0
  | fuel + 1, n => if n < 2 then 0 else bitLenAux fuel (n / 2) + 1

/-- Floor of `log₂ n` for `n ≥ 1` (and `0` for `n = 0`), by fuelled recursion so that
the kernel can evaluate it. -/
def floorLog2 (n : ℕ) : ℕ := bitLenAux n n

/-- Fuelled count of hexadecimal digits. -/
def nibLen : ℕ → ℕ → ℕ
  | 0, _ => 1
  | fuel + 1, n => if n < 16 then 1 else nibLen fuel (n / 16) + 1

/-- The number of digits of Python&apos;s `hex(n)` (without the `0x` prefix):
the minimal hexadecimal representation, one digit for `n = 0`. -/
def nibbleCount (n : ℕ) : ℕ := nibLen n n

/-- Model of `bitstring.BitArray(hex(v))`: four bits per hexadecimal digit of the
minimal representation, most significant digit first. -/
def hexBits (v : ℕ) : List Bool := natBits (4 * nibbleCount v) v

/-- Model of `.tobytes()` at the bit level: right-pad with `0`-bits to the next byte
boundary (between 0 and 7 pad bits). -/
def padToByte (bs : List Bool) : List Bool :=
  bs ++ List.replicate ((8 - bs.length % 8) % 8) false

/-- Model of `string.zfill(bits, w)`: left-pad the bit string with zeros to width `w`
(no-op when the string is already at least `w` long). -/
def zfill (w : ℕ) (bs : List Bool) : List Bool :=
  List.replicate (w - bs.length) false ++ bs

/-- Python slice `bs[a:b]` on a bitstring. -/
def slice (bs : List Bool) (a b : ℕ) : List Bool :=
  (bs.drop a).take (b - a)

/-- Bitstring `^`: bitwise xor of two bitstrings; `bitstring` raises
`ValueError` when the lengths differ, modelled as `none`. -/
def xorBits (a b : List Bool) : Option (List Bool) :=
  if a.length = b.length then some (List.zipWith xor a b) else none

/-- Value of a most-significant-first bit list. -/
def bitsVal (bs : List Bool) : ℕ :=
  bs.foldl (fun a b => 2 * a + b.toNat) 0

/-- Regroup a bit list into byte values, eight bits at a time; a final
partial group is right-padded with zero bits (callers pad first, so the
last branch is never reached on pipeline inputs). -/
def bytesOfBits : List Bool → List ℕ
  | b0 :: b1 :: b2 :: b3 :: b4 :: b5 :: b6 :: b7 :: rest =>
      bitsVal [b0, b1, b2, b3, b4, b5, b6, b7] :: bytesOfBits rest
  | [] => []
  | l => [bitsVal (l ++ List.replicate (8 - l.length) false)]

/-- Model of `.tobytes()`: right-pad to a byte boundary and regroup into bytes. -/
def tobytes (bs : List Bool) : List ℕ := bytesOfBits (padToByte bs)

/-- Decode a byte list back to its most-significant-first bit string
(8 bits per byte). -/
def bitsOfBytes (bytes : List ℕ) : List Bool :=
  (bytes.map (natBits 8)).flatten

/-! ## IEEE-754 rounding model (normal range)

Python computes `k = bz2_size / size` as a binary64 value and
`BitArray(float=k, length=32)` converts it to a binary32 bit pattern.  We
model the two roundings (53-bit and then 24-bit significand, round to
nearest, ties to even) over exact non-negative rationals represented as
numerator/denominator pairs of naturals (so that the kernel can evaluate
them). -/

/-- Whether `a / b < 2 ^ e` for the positive rational `a / b`. -/
def ratLt2Pow (a b : ℕ) (e : ℤ) : Bool :=
  if 0 ≤ e then a < b * 2 ^ e.toNat else a * 2 ^ (-e).toNat < b

/-- Floor of `log₂ (a / b)` for a positive rational `a / b`. -/
def ratExp (a b : ℕ) : ℤ :=
  let e0 : ℤ := (floorLog2 a : ℤ) - (floorLog2 b : ℤ)
  if ratLt2Pow a b e0 then e0 - 1 else e0

/-- The value `(a / b) · 2 ^ k` as a numerator/denominator pair. -/
def scalePow (a b : ℕ) (k : ℤ) : ℕ × ℕ :=
  if 0 ≤ k then (a * 2 ^ k.toNat, b) else (a, b * 2 ^ (-k).toNat)

/-- Round the positive rational `a / b` to a `p`-bit significand, nearest,
ties to even: returns the exponent `e` and significand `m ∈ [2^(p-1), 2^p)`
of the rounded value `m·2^(e-p+1)`. -/
def roundSig (p : ℕ) (a b : ℕ) : ℤ × ℕ :=
  let e := ratExp a b
  let s := scalePow a b ((p : ℤ) - 1 - e)
  let n := s.1 / s.2
  let r := s.1 % s.2
  let m := if 2 * r < s.2 then n
           else if s.2 < 2 * r then n + 1
           else if n % 2 = 0 then n else n + 1
  if m = 2 ^ p then (e + 1, 2 ^ (p - 1)) else (e, m)

/-- The exact value of `a / b` rounded to a `p`-bit-significand floating-point
value, again as a numerator/denominator pair (`a = 0` gives `0.0`). -/
def roundPair (p a b : ℕ) : ℕ × ℕ :=
  if a = 0 then (0, 1) else
  let em := roundSig p a b
  scalePow em.2 1 (em.1 - (p : ℤ) + 1)

/-- The 32 bits of the IEEE-754 binary32 encoding of the positive normal
value `a / b` (sign, 8 exponent bits biased by 127, 23 mantissa bits);
`a = 0` gives the `+0.0` pattern. -/
def float32bits (a b : ℕ) : List Bool :=
  if a = 0 then List.replicate 32 false else
  let em := roundSig 24 a b
  false :: (natBits 8 (em.1 + 127).toNat ++ natBits 23 (em.2 % 2 ^ 23))

/-! ## SHA-1 (`hashlib.sha1`) -/

/-- Left rotation within 32 bits. -/
def rotl (n x : ℕ) : ℕ := ((x <<< n) ||| (x >>> (32 - n))) % 2 ^ 32

/-- SHA-1 round function. -/
def sha1F (t b c d : ℕ) : ℕ :=
  if t < 20 then (b &&& c) ||| ((b ^^^ 0xFFFFFFFF) &&& d)
  else if t < 40 then b ^^^ c ^^^ d
  else if t < 60 then (b &&& c) ||| (b &&& d) ||| (c &&& d)
  else b ^^^ c ^^^ d

/-- SHA-1 round constants. -/
def sha1K (t : ℕ) : ℕ :=
  if t < 20 then 0x5A827999
  else if t < 40 then 0x6ED9EBA1
  else if t < 60 then 0x8F1BBCDC
  else 0xCA62C1D6

/-- Pack 4-byte groups into big-endian 32-bit words. -/
def wordsOfBytes : List ℕ → List ℕ
  | a :: b :: c :: d :: rest =>
      (((a * 256 + b) * 256 + c) * 256 + d) :: wordsOfBytes rest
  | _ => []

/-- SHA-1 message padding: `0x80`, zero bytes to 56 mod 64, then the bit
length as 8 big-endian bytes. -/
def sha1pad (msg : List ℕ) : List ℕ :=
  let L := msg.length
  msg ++ [0x80] ++ List.replicate ((119 - L % 64) % 64) 0
      ++ (List.range 8).map (fun i => ((8 * L) >>> (8 * (7 - i))) % 256)

/-- Split a byte list into 64-byte chunks. -/
def chunks64 : List ℕ → List (List ℕ)
  | [] => []
  | b :: bs => (b :: bs.take 63) :: chunks64 (bs.drop 63)
  termination_by bs => bs.length
  decreasing_by simp; omega

/-- Extend the 16 schedule words by `k` more words. -/
def extendW (ws : List ℕ) : ℕ → List ℕ
  | 0 => ws
  | k + 1 =>
    let i := ws.length
    extendW (ws ++ [rotl 1 ((ws.getD (i - 3) 0) ^^^ (ws.getD (i - 8) 0) ^^^
      (ws.getD (i - 14) 0) ^^^ (ws.getD (i - 16) 0))]) k

/-- One SHA-1 block step. -/
def sha1Block (h : ℕ × ℕ × ℕ × ℕ × ℕ) (chunk : List ℕ) : ℕ × ℕ × ℕ × ℕ × ℕ :=
  let ws := extendW (wordsOfBytes chunk) 64
  let st := (List.range 80).foldl
    (fun (st : ℕ × ℕ × ℕ × ℕ × ℕ) t =>
      let temp := (rotl 5 st.1 + sha1F t st.2.1 st.2.2.1 st.2.2.2.1 +
        st.2.2.2.2 + sha1K t + ws.getD t 0) % 2 ^ 32
      (temp, st.1, rotl 30 st.2.1, st.2.2.1, st.2.2.2.1)) h
  ((h.1 + st.1) % 2 ^ 32, (h.2.1 + st.2.1) % 2 ^ 32,
   (h.2.2.1 + st.2.2.1) % 2 ^ 32, (h.2.2.2.1 + st.2.2.2.1) % 2 ^ 32,
   (h.2.2.2.2 + st.2.2.2.2) % 2 ^ 32)

/-- SHA-1 digest (20 bytes) of a byte list. -/
def sha1 (msg : List ℕ) : List ℕ :=
  let h := (chunks64 (sha1pad msg)).foldl sha1Block
    (0x67452301, 0xEFCDAB89, 0x98BADCFE, 0x10325476, 0xC3D2E1F0)
  [h.1, h.2.1, h.2.2.1, h.2.2.2.1, h.2.2.2.2].flatMap
    (fun w => [(w >>> 24) % 256, (w >>> 16) % 256, (w >>> 8) % 256, w % 256])

/-- Lowercase hexadecimal digit character for a nibble (0-9 then a-f). -/
def hexDigit (n : ℕ) : Char :=
  if n < 10 then Char.ofNat (48 + n) else Char.ofNat (87 + n)

/-- Lowercase hexadecimal encoding of a byte list (`.hexdigest()`). -/
def toHex (bytes : List ℕ) : String :=
  String.mk (bytes.flatMap (fun b => [hexDigit (b / 16 % 16), hexDigit (b % 16)]))

/-! ## The parsed PE structure (pefile interface) -/

/-- One entry of the section table, as exposed by `pefile`. -/
structure SectionHeader where
  VirtualAddress : ℕ
  SizeOfRawData : ℕ
  Characteristics : ℕ
  deriving DecidableEq, Repr

/-- The parsed PE image: the four scalar fields read by `_get_pehash`, the
ordered section table, and `exe.write()` (the reconstructed file bytes). -/
structure PEImage where
  Characteristics : ℕ
  Machine : ℕ
  SizeOfStackCommit : ℕ
  SizeOfHeapCommit : ℕ
  sections : List SectionHeader
  data : List ℕ
  deriving DecidableEq, Repr

/-! ## The `_get_pehash` pipeline, fragment by fragment -/

/-- Lines 261–264: pad `hex(FILE_HEADER.Characteristics)` to a byte boundary,
then xor the slices `[0:7]` and `[8:15]`. -/
def img_chars_xor (v : ℕ) : Option (List Bool) :=
  let img_chars := padToByte (hexBits v)
  xorBits (slice img_chars 0 7) (slice img_chars 8 15)

/-- Lines 270–273: the same fold applied to `FILE_HEADER.Machine`. -/
def sub_chars_xor (v : ℕ) : Option (List Bool) :=
  let sub_chars := padToByte (hexBits v)
  xorBits (slice sub_chars 0 7) (slice sub_chars 8 15)

/-- Lines 277–283: left-zero-fill `hex(SizeOfStackCommit)` to 32 bits, xor the
slices `[8:15]`, `[16:23]`, `[24:31]`, then `.tobytes()`-pad the result. -/
def stk_size_xor (v : ℕ) : Option (List Bool) := do
  let stk_size := zfill 32 (hexBits v)
  let x1 ← xorBits (slice stk_size 8 15) (slice stk_size 16 23)
  let x2 ← xorBits x1 (slice stk_size 24 31)
  return padToByte x2

/-- Lines 287–293: the same fold applied to `SizeOfHeapCommit`. -/
def hp_size_xor (v : ℕ) : Option (List Bool) := do
  let hp_size := zfill 32 (hexBits v)
  let x1 ← xorBits (slice hp_size 8 15) (slice hp_size 16 23)
  let x2 ← xorBits x1 (slice hp_size 24 31)
  return padToByte x2

/-- Lines 299–300: the section&apos;s `VirtualAddress`, byte-boundary padded,
appended with no folding. -/
def sect_va_bits (v : ℕ) : List Bool := padToByte (hexBits v)

/-- Lines 304–309: `hex(SizeOfRawData)` → `.tobytes()` → zfill to 32 →
`.tobytes()` → slice `[8:31]`. -/
def sect_rs_bits (v : ℕ) : List Bool :=
  slice (padToByte (zfill 32 (padToByte (hexBits v)))) 8 31

/-- Lines 313–315: pad `hex(section.Characteristics)` to a byte boundary and
xor the slices `[16:23]` and `[24:31]`. -/
def sect_chars_xor (v : ℕ) : Option (List Bool) :=
  let sect_chars := padToByte (hexBits v)
  xorBits (slice sect_chars 16 23) (slice sect_chars 24 31)

/-- Lines 318–331: the entropy-approximation fragment.  `raw` is
`exe.write()[VirtualAddress+SizeOfRawData:]`; for an empty section the
fragment is `BitArray(float=1, length=32)[0:7]`, otherwise it is the first 7
bits of the binary32 pattern of `len(bz2.compress(raw)) / SizeOfRawData`. -/
def kolmog_bits (compressLen : List ℕ → ℕ) (data : List ℕ)
    (s : SectionHeader) : List Bool :=
  let raw := data.drop (s.VirtualAddress + s.SizeOfRawData)
  if s.SizeOfRawData = 0 then slice (float32bits 1 1) 0 7
  else
    let k := roundPair 53 (compressLen raw) s.SizeOfRawData
    slice (float32bits k.1 k.2) 0 7

/-- Lines 297–331: the per-section loop, appending to the accumulated
`pehash_bin` bitstring. -/
def sectionsLoop (compressLen : List ℕ → ℕ) (data : List ℕ) :
    List SectionHeader → List Bool → Option (List Bool)
  | [], pb => some pb
  | s :: rest, pb => do
    let pb := pb ++ sect_va_bits s.VirtualAddress
    let pb := pb ++ sect_rs_bits s.SizeOfRawData
    let sc ← sect_chars_xor s.Characteristics
    let pb := pb ++ sc
    let pb := pb ++ kolmog_bits compressLen data s
    sectionsLoop compressLen data rest pb

/-- Lines 259–331: the full `pehash_bin` bitstring accumulated by
`_get_pehash` before the SHA-1 step; `none` models an uncaught bitstring
`ValueError` escaping the method. -/
def pehash_bin (compressLen : List ℕ → ℕ) (exe : PEImage) :
    Option (List Bool) := do
  let a1 ← img_chars_xor exe.Characteristics
  let a2 ← sub_chars_xor exe.Machine
  let a3 ← stk_size_xor exe.SizeOfStackCommit
  let a4 ← hp_size_xor exe.SizeOfHeapCommit
  sectionsLoop compressLen exe.data exe.sections (a1 ++ a2 ++ a3 ++ a4)

/-- Lines 333–336: the PEhash — the lowercase-hex SHA-1 digest of
`pehash_bin.tobytes()`. -/
def pehash (compressLen : List ℕ → ℕ) (exe : PEImage) : Option String :=
  (pehash_bin compressLen exe).map (fun pb => toHex (sha1 (tobytes pb)))

/-! ## Derived arithmetic forms of the fragments

These state, in plain `Nat` arithmetic, what the string pipeline above
computes; the claim theorems below equate the two. -/

/-- The 16-bit word that the u16 fold actually consults: a 3-hex-digit value
is right-padded by one zero nibble, a 4-digit value is used as-is. -/
def eff16 (v : ℕ) : ℕ := if v < 0x1000 then 16 * v else v

/-- Arithmetic form of the u16 fold fragment (7 bits): bits 0–6 xor
bits 8–14 (most-significant-first numbering) of the 16-bit word `eff16 v`. -/
def fold16val (v : ℕ) : List Bool :=
  natBits 7 ((eff16 v >>> 9) ^^^ (eff16 v >>> 1))

/-- Arithmetic form of the u32 size fold fragment (8 bits): bits 8–14 xor
bits 16–22 xor bits 24–30 of the 32-bit value, followed by one zero pad
bit. -/
def fold32val (v : ℕ) : List Bool :=
  natBits 7 ((v >>> 17) ^^^ (v >>> 9) ^^^ (v >>> 1)) ++ [false]

/-- The 32-bit word consulted for the raw-size fragment: the value itself for
an even hex-digit count, the value shifted one nibble left for an odd one. -/
def effRS (v : ℕ) : ℕ := if nibbleCount v % 2 = 0 then v else 16 * v

/-- Arithmetic form of the raw-size fragment (23 bits): bits 8–30 of the
32-bit word `effRS v`, that is bits 0–22 of `effRS v / 2`. -/
def rsval (v : ℕ) : List Bool := natBits 23 (effRS v / 2)

/-- The 32-bit word consulted by the section-characteristics fold when the
value has 7 or 8 hex digits. -/
def effSC (v : ℕ) : ℕ := if v < 0x10000000 then 16 * v else v

/-- Arithmetic form of the section-characteristics fragment for values with
7 or 8 hex digits (7 bits): bits 16–22 xor bits 24–30 of `effSC v`. -/
def scval (v : ℕ) : List Bool :=
  natBits 7 ((effSC v >>> 9) ^^^ (effSC v >>> 1))

/-- The numerator/denominator pair whose binary32 pattern the entropy step
slices: `1.0` for an empty section, otherwise the binary64-rounded quotient
`len(bz2.compress(raw)) / SizeOfRawData`. -/
def kolmogPair (compressLen : List ℕ → ℕ) (data : List ℕ)
    (s : SectionHeader) : ℕ × ℕ :=
  if s.SizeOfRawData = 0 then (1, 1)
  else roundPair 53 (compressLen (data.drop (s.VirtualAddress + s.SizeOfRawData)))
    s.SizeOfRawData

/-- Per-section block of the pehash bitstring, as one concatenation. -/
def sectionBlock (compressLen : List ℕ → ℕ) (data : List ℕ)
    (s : SectionHeader) : Option (List Bool) :=
  (sect_chars_xor s.Characteristics).map (fun sc =>
    sect_va_bits s.VirtualAddress ++ sect_rs_bits s.SizeOfRawData ++ sc ++
      kolmog_bits compressLen data s)

/-- Option-valued map over a list (explicit form of `mapM`). -/
def optMap {α β : Type} (f : α → Option β) : List α → Option (List β)
  | [] => some []
  | a :: as => do
    let b ← f a
    let bs ← optMap f as
    return b :: bs

/-- Bit length of the virtual-address fragment for a field value `v`. -/
def vaLen (v : ℕ) : ℕ := 8 * ((nibbleCount v + 1) / 2)

/-- Bit length of the section-characteristics fragment of a section (for
values outside the failing range). -/
def scLen (s : SectionHeader) : ℕ := if s.Characteristics < 0x10000 then 0 else 7

/-! ## Concrete instances used by the claim theorems

`clEmpty` models the only fact about `bz2` that the concrete instances rely
on: `len(bz2.compress(b'')) = 14` (every image slice taken below is empty,
because the sections lie past the end of the image data). -/

/-- Compressed-length function for the concrete instances; the real `bz2`
compressed length of the empty byte string is 14. -/
def clEmpty : List ℕ → ℕ := fun _ => 14

/-- A minimal valid image with no sections. -/
def exeA : PEImage := ⟨0x100, 0x100, 0x1000, 0, [], []⟩

/-- A one-section image (empty section) used for the length claims. -/
def exeC7 : PEImage :=
  ⟨0x10F, 0x14C, 0x1000, 0x100000, [⟨0x1000, 0, 0x60000020⟩], []⟩

/-- Header bytes shared by the raw-size sensitivity instances. -/
def dataC8 : List ℕ := List.replicate 64 77

/-- Sensitivity instance: section raw size `2^28`. -/
def exeC8a : PEImage :=
  ⟨0x10F, 0x14C, 0x1000, 0x100000, [⟨0x1000, 0x10000000, 0x60000020⟩], dataC8⟩

/-- Sensitivity instance: raw size `2^28 + 1` (differs from `exeC8a` only in
bit 31 of the padded raw size, which the `[8:31]` slice drops). -/
def exeC8b : PEImage :=
  ⟨0x10F, 0x14C, 0x1000, 0x100000, [⟨0x1000, 0x10000001, 0x60000020⟩], dataC8⟩

/-- Sensitivity instance: raw size `2^28 + 0x40` (differs from `exeC8a`
inside bits 8–30, which the slice keeps). -/
def exeC8d : PEImage :=
  ⟨0x10F, 0x14C, 0x1000, 0x100000, [⟨0x1000, 0x10000040, 0x60000020⟩], dataC8⟩

/-- An image whose characteristics field is below `0x100`, which makes the
16-bit fold xor a 7-bit slice with an empty slice. -/
def exeC9 : PEImage := ⟨0xFF, 0x14C, 0x1000, 0x100000, [], []⟩

/-- The pre-hash bitstring of `exeA` (30 bits). -/
def binA : List Bool :=
  [false, false, false, true, false, false, false, false, false, false, true, false, false, false, false, false, false, true, false, false, false, false, false, false, false, false, false, false, false, false]

end PEHash

namespace PEHash

/-! ## Bit-level lemmas -/

@[simp] lemma natBits_length (w n : ℕ) : (natBits w n).length = w := by
  simp [natBits]

lemma natBits_getElem (w n i : ℕ) (h : i < (natBits w n).length) :
    (natBits w n)[i] = n.testBit (w - 1 - i) := by
  simp [natBits]

lemma natBits_append_replicate (w k n : ℕ) :
    natBits w n ++ List.replicate k false = natBits (w + k) (n * 2 ^ k) := by
  apply List.ext_getElem
  · simp
  · intro i h1 h2
    rw [natBits_getElem _ _ _ h2, ← Nat.shiftLeft_eq, Nat.testBit_shiftLeft]
    rcases Nat.lt_or_ge i w with hi | hi
    · rw [List.getElem_append_left (by simpa using hi), natBits_getElem]
      have hk : k ≤ w + k - 1 - i := by omega
      simp only [ge_iff_le, hk, decide_True, Bool.true_and]
      congr 1
      omega
    · rw [List.getElem_append_right (by simpa using hi)]
      have hk : ¬ (k ≤ w + k - 1 - i) := by
        simp at h2
        omega
      simp [hk]

lemma replicate_append_natBits (k w n : ℕ) (h : n < 2 ^ w) :
    List.replicate k false ++ natBits w n = natBits (k + w) n := by
  apply List.ext_getElem
  · simp
  · intro i h1 h2
    rw [natBits_getElem _ _ _ h2]
    rcases Nat.lt_or_ge i k with hi | hi
    · rw [List.getElem_append_left (by simpa using hi), List.getElem_replicate]
      symm
      apply Nat.testBit_lt_two_pow
      exact lt_of_lt_of_le h (Nat.pow_le_pow_right (by norm_num) (by omega))
    · rw [List.getElem_append_right (by simpa using hi), natBits_getElem]
      simp only [List.length_replicate]
      congr 1
      simp at h2
      omega

lemma slice_natBits (w n a b : ℕ) (hab : a ≤ b) (hbw : b ≤ w) :
    slice (natBits w n) a b = natBits (b - a) (n >>> (w - b)) := by
  apply List.ext_getElem
  · simp [slice]
    omega
  · intro i h1 h2
    simp only [slice]
    rw [List.getElem_take, List.getElem_drop, natBits_getElem _ _ _ h2,
      natBits_getElem, Nat.testBit_shiftRight]
    congr 1
    simp at h2
    omega

lemma take_natBits (w n k : ℕ) (h : k ≤ w) :
    (natBits w n).take k = natBits k (n >>> (w - k)) := by
  have := slice_natBits w n 0 k (by omega) h
  simpa [slice] using this

lemma xorBits_natBits (k a b : ℕ) :
    xorBits (natBits k a) (natBits k b) = some (natBits k (a ^^^ b)) := by
  unfold xorBits
  rw [if_pos (by simp : (natBits k a).length = (natBits k b).length)]
  congr 1
  apply List.ext_getElem
  · simp
  · intro i h1 h2
    rw [List.getElem_zipWith, natBits_getElem _ _ _ h2, natBits_getElem, natBits_getElem,
      Nat.testBit_xor]

lemma padToByte_natBits (w n : ℕ) :
    padToByte (natBits w n) =
      natBits (w + (8 - w % 8) % 8) (n * 2 ^ ((8 - w % 8) % 8)) := by
  simp only [padToByte, natBits_length]
  exact natBits_append_replicate _ _ _

lemma zfill_natBits (w v n : ℕ) (hwv : v ≤ w) (h : n < 2 ^ v) :
    zfill w (natBits v n) = natBits w n := by
  simp only [zfill, natBits_length]
  rw [replicate_append_natBits _ _ _ h]
  congr 1
  omega

/-! ## Hexadecimal digit-count lemmas -/

lemma nibLen_lt_pow : ∀ fuel n, n ≤ fuel → n < 16 ^ nibLen fuel n := by
  intro fuel
  induction fuel with
  | zero =>
    intro n h
    simp only [nibLen]
    omega
  | succ f ih =>
    intro n h
    by_cases h16 : n < 16
    · simp [nibLen, h16]
    · simp only [nibLen, if_neg h16]
      have hdiv : n / 16 ≤ f := by
        have := Nat.div_lt_self (show 0 < n by omega) (show 1 < 16 by omega)
        omega
      have h1 := ih (n / 16) hdiv
      have h2 := Nat.div_add_mod n 16
      have h3 : n % 16 < 16 := Nat.mod_lt n (by omega)
      rw [pow_succ, mul_comm]
      omega

lemma nibbleCount_lt_pow (n : ℕ) : n < 16 ^ nibbleCount n :=
  nibLen_lt_pow n n le_rfl

lemma nibLen_eq : ∀ k fuel n, n ≤ fuel → 16 ^ k ≤ n → n < 16 ^ (k + 1) →
    nibLen fuel n = k + 1 := by
  intro k
  induction k with
  | zero =>
    intro fuel n hf h1 h2
    cases fuel with
    | zero => rfl
    | succ f =>
      have : n < 16 := by simpa using h2
      simp [nibLen, this]
  | succ k ih =>
    intro fuel n hf h1 h2
    have h16 : (16 : ℕ) ≤ 16 ^ (k + 1) := by
      calc (16 : ℕ) = 16 ^ 1 := (pow_one 16).symm
      _ ≤ 16 ^ (k + 1) := Nat.pow_le_pow_right (by omega) (by omega)
    cases fuel with
    | zero => omega
    | succ f =>
      have hn16 : ¬ n < 16 := by omega
      simp only [nibLen, if_neg hn16]
      congr 1
      apply ih f (n / 16)
      · have := Nat.div_lt_self (show 0 < n by omega) (show 1 < 16 by omega)
        omega
      · rw [Nat.le_div_iff_mul_le (by omega : 0 < 16)]
        calc 16 ^ k * 16 = 16 ^ (k + 1) := by rw [pow_succ]
        _ ≤ n := h1
      · rw [Nat.div_lt_iff_lt_mul (by omega : 0 < 16)]
        calc n < 16 ^ (k + 1 + 1) := h2
        _ = 16 ^ (k + 1) * 16 := by rw [pow_succ]

lemma nibbleCount_eq (v k : ℕ) (h1 : 16 ^ k ≤ v) (h2 : v < 16 ^ (k + 1)) :
    nibbleCount v = k + 1 :=
  nibLen_eq k v v le_rfl h1 h2

lemma exists_pow16 (v : ℕ) (h0 : 0 < v) (h8 : v < 16 ^ 8) :
    ∃ k, k < 8 ∧ 16 ^ k ≤ v ∧ v < 16 ^ (k + 1) := by
  rcases Nat.lt_or_ge v 16 with h | h
  · exact ⟨0, by omega, by simpa using h0, by simpa using h⟩
  rcases Nat.lt_or_ge v (16 ^ 2) with h2 | h2
  · exact ⟨1, by omega, by simpa using h, h2⟩
  rcases Nat.lt_or_ge v (16 ^ 3) with h3 | h3
  · exact ⟨2, by omega, h2, h3⟩
  rcases Nat.lt_or_ge v (16 ^ 4) with h4 | h4
  · exact ⟨3, by omega, h3, h4⟩
  rcases Nat.lt_or_ge v (16 ^ 5) with h5 | h5
  · exact ⟨4, by omega, h4, h5⟩
  rcases Nat.lt_or_ge v (16 ^ 6) with h6 | h6
  · exact ⟨5, by omega, h5, h6⟩
  rcases Nat.lt_or_ge v (16 ^ 7) with h7 | h7
  · exact ⟨6, by omega, h6, h7⟩
  exact ⟨7, by omega, h7, h8⟩

lemma hexBits_eq (v : ℕ) : hexBits v = natBits (4 * nibbleCount v) v := rfl

lemma hexBits_lt (v : ℕ) : v < 2 ^ (4 * nibbleCount v) := by
  have := nibbleCount_lt_pow v
  calc v < 16 ^ nibbleCount v := this
  _ = 2 ^ (4 * nibbleCount v) := by
    rw [show (16 : ℕ) = 2 ^ 4 by norm_num, ← pow_mul]


/-! ## Fragment characterizations -/

lemma nibbleCount_eq_lit (v k a b : ℕ) (ha : 16 ^ k = a) (hb : 16 ^ (k + 1) = b)
    (h1 : a ≤ v) (h2 : v < b) : nibbleCount v = k + 1 := by
  subst ha hb
  exact nibbleCount_eq v k h1 h2

lemma fold16_eq (v : ℕ) (h1 : 2 ^ 8 ≤ v) (h2 : v < 2 ^ 16) :
    xorBits (slice (padToByte (hexBits v)) 0 7) (slice (padToByte (hexBits v)) 8 15)
      = some (fold16val v) := by
  norm_num at h1 h2
  rcases Nat.lt_or_ge v 0x1000 with h3 | h3
  · have hnc : nibbleCount v = 3 :=
      nibbleCount_eq_lit v 2 256 4096 (by norm_num) (by norm_num) (by omega) (by omega)
    rw [hexBits_eq, hnc, padToByte_natBits]
    norm_num
    rw [slice_natBits _ _ _ _ (by omega) (by omega),
      slice_natBits _ _ _ _ (by omega) (by omega)]
    norm_num
    rw [xorBits_natBits]
    unfold fold16val eff16
    rw [if_pos h3, mul_comm]
  · have hnc : nibbleCount v = 4 :=
      nibbleCount_eq_lit v 3 4096 65536 (by norm_num) (by norm_num) (by omega) (by omega)
    rw [hexBits_eq, hnc, padToByte_natBits]
    norm_num
    rw [slice_natBits _ _ _ _ (by omega) (by omega),
      slice_natBits _ _ _ _ (by omega) (by omega)]
    norm_num
    rw [xorBits_natBits]
    unfold fold16val eff16
    rw [if_neg (by omega)]

lemma img_chars_xor_eq (v : ℕ) (h1 : 2 ^ 8 ≤ v) (h2 : v < 2 ^ 16) :
    img_chars_xor v = some (fold16val v) := fold16_eq v h1 h2

lemma sub_chars_xor_eq (v : ℕ) (h1 : 2 ^ 8 ≤ v) (h2 : v < 2 ^ 16) :
    sub_chars_xor v = some (fold16val v) := fold16_eq v h1 h2


lemma pow16_eq (m : ℕ) : (16 : ℕ) ^ m = 2 ^ (4 * m) := by
  rw [show (16 : ℕ) = 2 ^ 4 by norm_num, ← pow_mul]

lemma stk_size_xor_eq (v : ℕ) (h : v < 2 ^ 32) :
    stk_size_xor v = some (fold32val v) := by
  norm_num at h
  rcases Nat.eq_zero_or_pos v with rfl | h0
  · decide
  obtain ⟨k, hk, h1, h2⟩ := exists_pow16 v h0 (by norm_num; omega)
  have hnc := nibbleCount_eq v k h1 h2
  have hv2 : v < 2 ^ (4 * (k + 1)) := by rw [← pow16_eq]; exact h2
  unfold stk_size_xor
  dsimp only
  rw [hexBits_eq, hnc,
    zfill_natBits _ _ _ (by omega) hv2,
    slice_natBits _ _ _ _ (by omega) (by omega),
    slice_natBits _ _ _ _ (by omega) (by omega),
    slice_natBits _ _ _ _ (by omega) (by omega)]
  norm_num
  rw [xorBits_natBits]
  simp only [Option.some_bind]
  rw [xorBits_natBits]
  simp only [Option.some_bind]
  unfold padToByte fold32val
  norm_num

lemma hp_size_xor_eq (v : ℕ) (h : v < 2 ^ 32) :
    hp_size_xor v = some (fold32val v) := stk_size_xor_eq v h

lemma slice_of_len_le (bs : List Bool) (a b : ℕ) (h : bs.length ≤ a) :
    slice bs a b = [] := by
  simp [slice, List.drop_eq_nil_of_le h]

lemma sect_rs_bits_eq (v : ℕ) (h : v < 2 ^ 32) : sect_rs_bits v = rsval v := by
  norm_num at h
  rcases Nat.eq_zero_or_pos v with rfl | h0
  · decide
  obtain ⟨k, hk, h1, h2⟩ := exists_pow16 v h0 (by norm_num; omega)
  have hnc := nibbleCount_eq v k h1 h2
  unfold sect_rs_bits rsval effRS
  rw [hexBits_eq, hnc, padToByte_natBits]
  interval_cases k <;>
  · norm_num at h1 h2 ⊢
    rw [zfill_natBits _ _ _ (by norm_num) (by omega), padToByte_natBits]
    norm_num
    rw [slice_natBits _ _ _ _ (by omega) (by omega)]
    norm_num [Nat.shiftRight_eq_div_pow, mul_comm]

lemma sect_chars_xor_eq (v : ℕ) (h : v < 2 ^ 32) :
    sect_chars_xor v =
      if v < 2 ^ 16 then some []
      else if v < 2 ^ 24 then none
      else some (scval v) := by
  norm_num at h
  rcases Nat.eq_zero_or_pos v with rfl | h0
  · decide
  obtain ⟨k, hk, h1, h2⟩ := exists_pow16 v h0 (by norm_num; omega)
  have hnc := nibbleCount_eq v k h1 h2
  unfold sect_chars_xor
  rw [hexBits_eq, hnc, padToByte_natBits]
  interval_cases k
  · norm_num at h1 h2 ⊢
    rw [if_pos (by omega), slice_of_len_le _ _ _ (by simp),
      slice_of_len_le _ _ _ (by simp)]
    decide
  · norm_num at h1 h2 ⊢
    rw [if_pos (by omega), slice_of_len_le _ _ _ (by simp),
      slice_of_len_le _ _ _ (by simp)]
    decide
  · norm_num at h1 h2 ⊢
    rw [if_pos (by omega), slice_of_len_le _ _ _ (by simp),
      slice_of_len_le _ _ _ (by simp)]
    decide
  · norm_num at h1 h2 ⊢
    rw [if_pos (by omega), slice_of_len_le _ _ _ (by simp),
      slice_of_len_le _ _ _ (by simp)]
    decide
  · norm_num at h1 h2 ⊢
    rw [if_neg (by omega), if_pos (by omega),
      slice_natBits _ _ _ _ (by omega) (by omega),
      slice_of_len_le _ _ _ (by simp)]
    unfold xorBits
    rw [if_neg (by simp)]
  · norm_num at h1 h2 ⊢
    rw [if_neg (by omega), if_pos (by omega),
      slice_natBits _ _ _ _ (by omega) (by omega),
      slice_of_len_le _ _ _ (by simp)]
    unfold xorBits
    rw [if_neg (by simp)]
  · norm_num at h1 h2 ⊢
    rw [if_neg (by omega), if_neg (by omega),
      slice_natBits _ _ _ _ (by omega) (by omega),
      slice_natBits _ _ _ _ (by omega) (by omega)]
    norm_num
    rw [xorBits_natBits]
    unfold scval effSC
    rw [if_pos (by omega), mul_comm]
  · norm_num at h1 h2 ⊢
    rw [if_neg (by omega), if_neg (by omega),
      slice_natBits _ _ _ _ (by omega) (by omega),
      slice_natBits _ _ _ _ (by omega) (by omega)]
    norm_num
    rw [xorBits_natBits]
    unfold scval effSC
    rw [if_neg (by omega)]

/-! ## Entropy fragment lemmas -/

lemma float32bits_length (a b : ℕ) : (float32bits a b).length = 32 := by
  unfold float32bits
  split <;> simp

lemma kolmog_bits_eq (compressLen : List ℕ → ℕ) (data : List ℕ)
    (s : SectionHeader) :
    kolmog_bits compressLen data s =
      (float32bits (kolmogPair compressLen data s).1
        (kolmogPair compressLen data s).2).take 7 := by
  unfold kolmog_bits kolmogPair
  by_cases h : s.SizeOfRawData = 0 <;> simp [h, slice]

lemma kolmog_bits_length (compressLen : List ℕ → ℕ) (data : List ℕ)
    (s : SectionHeader) : (kolmog_bits compressLen data s).length = 7 := by
  rw [kolmog_bits_eq]
  simp [float32bits_length]

lemma kolmog_bits_struct (compressLen : List ℕ → ℕ) (data : List ℕ)
    (s : SectionHeader) (h : (kolmogPair compressLen data s).1 ≠ 0) :
    kolmog_bits compressLen data s =
      false :: natBits 6
        (((roundSig 24 (kolmogPair compressLen data s).1
          (kolmogPair compressLen data s).2).1 + 127).toNat >>> 2) := by
  rw [kolmog_bits_eq]
  unfold float32bits
  rw [if_neg h]
  rw [show (7 : ℕ) = 6 + 1 from rfl, List.take_succ_cons,
    List.take_append_of_le_length (by simp), take_natBits _ _ _ (by omega)]

/-! ## Digit-count bounds and failure lemmas -/

lemma nibLen_pos : ∀ fuel n, 1 ≤ nibLen fuel n := by
  intro fuel n
  cases fuel with
  | zero => simp [nibLen]
  | succ f =>
    unfold nibLen
    split <;> omega

lemma nibbleCount_pos (n : ℕ) : 1 ≤ nibbleCount n := nibLen_pos n n

lemma nibbleCount_le_two (v : ℕ) (h : v < 2 ^ 8) : nibbleCount v ≤ 2 := by
  norm_num at h
  rcases Nat.eq_zero_or_pos v with rfl | h0
  · decide
  rcases Nat.lt_or_ge v 16 with h16 | h16
  · rw [nibbleCount_eq_lit v 0 1 16 (by norm_num) (by norm_num) (by omega) (by omega)]
    omega
  · rw [nibbleCount_eq_lit v 1 16 256 (by norm_num) (by norm_num) (by omega) (by omega)]

lemma nibbleCount_ge_three (v : ℕ) (h1 : 2 ^ 8 ≤ v) (h2 : v < 2 ^ 32) :
    3 ≤ nibbleCount v := by
  norm_num at h1 h2
  obtain ⟨k, hk, hka, hkb⟩ := exists_pow16 v (by omega) (by norm_num; omega)
  have hnc := nibbleCount_eq v k hka hkb
  have : 2 ≤ k := by
    by_contra hlt
    push_neg at hlt
    interval_cases k <;> norm_num at hkb <;> omega
  omega

lemma img_chars_xor_none (v : ℕ) (h : v < 2 ^ 8) : img_chars_xor v = none := by
  have hpos := nibbleCount_pos v
  have hle := nibbleCount_le_two v h
  have hL : (padToByte (hexBits v)).length = 8 := by
    simp only [padToByte, hexBits_eq, List.length_append, natBits_length,
      List.length_replicate]
    omega
  unfold img_chars_xor xorBits
  rw [if_neg]
  simp only [slice, List.length_take, List.length_drop, hL]
  omega

lemma sub_chars_xor_none (v : ℕ) (h : v < 2 ^ 8) : sub_chars_xor v = none :=
  img_chars_xor_none v h

/-! ## Fragment lengths -/

lemma fold16val_length (v : ℕ) : (fold16val v).length = 7 := by simp [fold16val]

lemma fold32val_length (v : ℕ) : (fold32val v).length = 8 := by simp [fold32val]

lemma rsval_length (v : ℕ) : (rsval v).length = 23 := by simp [rsval]

lemma scval_length (v : ℕ) : (scval v).length = 7 := by simp [scval]

lemma sect_va_bits_length (v : ℕ) : (sect_va_bits v).length = vaLen v := by
  have hpos := nibbleCount_pos v
  simp only [sect_va_bits, vaLen, padToByte, hexBits_eq, List.length_append,
    natBits_length, List.length_replicate]
  omega

lemma sect_rs_bits_length (v : ℕ) : (sect_rs_bits v).length = 23 := by
  have hpos := nibbleCount_pos v
  simp only [sect_rs_bits, slice, zfill, padToByte, hexBits_eq,
    List.length_take, List.length_drop, List.length_append, natBits_length,
    List.length_replicate]
  omega

/-! ## Pipeline composition -/

lemma optMap_nil {α β : Type} (f : α → Option β) : optMap f [] = some [] := rfl

lemma optMap_cons {α β : Type} (f : α → Option β) (a : α) (as : List α) :
    optMap f (a :: as) =
      (f a).bind fun b => (optMap f as).bind fun bs => some (b :: bs) := rfl

lemma optMap_isSome {α β : Type} (f : α → Option β) (l : List α) :
    (optMap f l).isSome ↔ ∀ a ∈ l, (f a).isSome := by
  induction l with
  | nil => simp [optMap_nil]
  | cons a as ih =>
    rw [List.forall_mem_cons, ← ih, optMap_cons]
    cases hf : f a with
    | none => simp
    | some b =>
      cases hrest : optMap f as with
      | none => simp [hrest]
      | some bs => simp [hrest]

lemma sectionsLoop_eq (cl : List ℕ → ℕ) (data : List ℕ) :
    ∀ (ss : List SectionHeader) (pb : List Bool),
    sectionsLoop cl data ss pb =
      (optMap (sectionBlock cl data) ss).map (fun bl => pb ++ bl.flatten) := by
  intro ss
  induction ss with
  | nil =>
    intro pb
    simp [sectionsLoop, optMap]
  | cons s rest ih =>
    intro pb
    simp only [sectionsLoop, optMap, sectionBlock]
    cases hsc : sect_chars_xor s.Characteristics with
    | none => rfl
    | some sc =>
      simp only [Option.bind_eq_bind, Option.some_bind]
      rw [ih]
      cases hrest : optMap (sectionBlock cl data) rest with
      | none => simp [hrest]
      | some bl => simp [hrest, List.append_assoc]

lemma pehash_bin_some (cl : List ℕ → ℕ) (exe : PEImage) (a1 a2 a3 a4 : List Bool)
    (bl : List (List Bool))
    (h1 : img_chars_xor exe.Characteristics = some a1)
    (h2 : sub_chars_xor exe.Machine = some a2)
    (h3 : stk_size_xor exe.SizeOfStackCommit = some a3)
    (h4 : hp_size_xor exe.SizeOfHeapCommit = some a4)
    (h5 : optMap (sectionBlock cl exe.data) exe.sections = some bl) :
    pehash_bin cl exe = some (a1 ++ a2 ++ a3 ++ a4 ++ bl.flatten) := by
  unfold pehash_bin
  rw [h1, h2, h3, h4]
  simp only [Option.bind_eq_bind, Option.some_bind]
  rw [sectionsLoop_eq, h5]
  simp [List.append_assoc]

lemma pehash_bin_isSome (cl : List ℕ → ℕ) (exe : PEImage)
    (hw3 : exe.SizeOfStackCommit < 2 ^ 32) (hw4 : exe.SizeOfHeapCommit < 2 ^ 32) :
    (pehash_bin cl exe).isSome ↔
      (img_chars_xor exe.Characteristics).isSome ∧
      (sub_chars_xor exe.Machine).isSome ∧
      (optMap (sectionBlock cl exe.data) exe.sections).isSome := by
  cases himg : img_chars_xor exe.Characteristics with
  | none =>
    have h : pehash_bin cl exe = none := by
      unfold pehash_bin
      rw [himg]
      rfl
    rw [h]
    simp
  | some a1 =>
    cases hsub : sub_chars_xor exe.Machine with
    | none =>
      have h : pehash_bin cl exe = none := by
        unfold pehash_bin
        rw [himg, hsub]
        rfl
      rw [h]
      simp
    | some a2 =>
      have h : pehash_bin cl exe =
          (optMap (sectionBlock cl exe.data) exe.sections).map
            (fun bl => a1 ++ a2 ++ fold32val exe.SizeOfStackCommit ++
              fold32val exe.SizeOfHeapCommit ++ bl.flatten) := by
        unfold pehash_bin
        rw [himg, hsub, stk_size_xor_eq _ hw3, hp_size_xor_eq _ hw4]
        simp only [Option.bind_eq_bind, Option.some_bind]
        rw [sectionsLoop_eq]
      rw [h]
      simp

lemma img_chars_xor_isSome (v : ℕ) (hw : v < 2 ^ 16) :
    (img_chars_xor v).isSome ↔ 2 ^ 8 ≤ v := by
  constructor
  · intro h
    by_contra hlt
    push_neg at hlt
    rw [img_chars_xor_none v hlt] at h
    simp at h
  · intro h
    rw [img_chars_xor_eq v h hw]
    simp

lemma sect_chars_xor_isSome (v : ℕ) (hw : v < 2 ^ 32) :
    (sect_chars_xor v).isSome ↔ (v < 2 ^ 16 ∨ 2 ^ 24 ≤ v) := by
  rw [sect_chars_xor_eq v hw]
  by_cases h1 : v < 2 ^ 16
  · rw [if_pos h1]
    simp
    omega
  · rw [if_neg h1]
    by_cases h2 : v < 2 ^ 24
    · rw [if_pos h2]
      simp
      omega
    · rw [if_neg h2]
      simp
      omega

lemma sectionBlock_isSome (cl : List ℕ → ℕ) (data : List ℕ) (s : SectionHeader) :
    (sectionBlock cl data s).isSome ↔ (sect_chars_xor s.Characteristics).isSome := by
  unfold sectionBlock
  simp

lemma sectionBlock_length (cl : List ℕ → ℕ) (data : List ℕ) (s : SectionHeader)
    (hch32 : s.Characteristics < 2 ^ 32)
    (hch : s.Characteristics < 2 ^ 16 ∨ 2 ^ 24 ≤ s.Characteristics) :
    ∃ blk, sectionBlock cl data s = some blk ∧
      blk.length = vaLen s.VirtualAddress + 30 + scLen s := by
  unfold sectionBlock scLen
  rcases hch with hlt | hge
  · rw [sect_chars_xor_eq _ hch32, if_pos (by norm_num at hlt ⊢; omega)]
    refine ⟨_, rfl, ?_⟩
    rw [if_pos (by norm_num at hlt ⊢; omega)]
    simp [sect_va_bits_length, sect_rs_bits_length, kolmog_bits_length]
  · rw [sect_chars_xor_eq _ hch32, if_neg (by norm_num at hge ⊢; omega),
      if_neg (by norm_num at hge ⊢; omega)]
    refine ⟨_, rfl, ?_⟩
    rw [if_neg (by norm_num at hge ⊢; omega)]
    simp [sect_va_bits_length, sect_rs_bits_length, kolmog_bits_length, scval_length]

lemma optMap_sections_length (cl : List ℕ → ℕ) (data : List ℕ) :
    ∀ ss : List SectionHeader,
    (∀ s ∈ ss, s.Characteristics < 2 ^ 32) →
    (∀ s ∈ ss, s.Characteristics < 2 ^ 16 ∨ 2 ^ 24 ≤ s.Characteristics) →
    ∃ bl, optMap (sectionBlock cl data) ss = some bl ∧
      bl.flatten.length =
        ((ss.map (fun s => vaLen s.VirtualAddress + 30 + scLen s)).sum) := by
  intro ss
  induction ss with
  | nil =>
    intro _ _
    exact ⟨[], rfl, rfl⟩
  | cons s rest ih =>
    intro h32 hch
    obtain ⟨blk, hblk, hlen⟩ := sectionBlock_length cl data s
      (h32 s (List.mem_cons_self s rest)) (hch s (List.mem_cons_self s rest))
    obtain ⟨bl, hbl, hbllen⟩ := ih
      (fun x hx => h32 x (List.mem_cons_of_mem s hx))
      (fun x hx => hch x (List.mem_cons_of_mem s hx))
    refine ⟨blk :: bl, ?_, ?_⟩
    · rw [optMap_cons, hblk, hbl]
      rfl
    · simp [hlen, hbllen]

/-! ## Byte conversion round trip -/

lemma natBits_bitsVal8 (b0 b1 b2 b3 b4 b5 b6 b7 : Bool) :
    natBits 8 (bitsVal [b0, b1, b2, b3, b4, b5, b6, b7]) =
      [b0, b1, b2, b3, b4, b5, b6, b7] := by
  cases b0 <;> cases b1 <;> cases b2 <;> cases b3 <;> cases b4 <;> cases b5 <;>
    cases b6 <;> cases b7 <;> rfl

lemma bitsOfBytes_bytesOfBits : ∀ (n : ℕ) (l : List Bool), l.length = 8 * n →
    bitsOfBytes (bytesOfBits l) = l := by
  intro n
  induction n with
  | zero =>
    intro l h
    rw [Nat.mul_zero, List.length_eq_zero] at h
    subst h
    rfl
  | succ k ih =>
    intro l h
    rcases l with _ | ⟨b0, _ | ⟨b1, _ | ⟨b2, _ | ⟨b3, _ | ⟨b4, _ | ⟨b5, _ |
      ⟨b6, _ | ⟨b7, rest⟩⟩⟩⟩⟩⟩⟩⟩ <;>
        simp only [List.length_cons, List.length_nil] at h <;>
        first
          | omega
          | skip
    have hstep : bitsOfBytes (bytesOfBits
        (b0 :: b1 :: b2 :: b3 :: b4 :: b5 :: b6 :: b7 :: rest)) =
        natBits 8 (bitsVal [b0, b1, b2, b3, b4, b5, b6, b7]) ++
          bitsOfBytes (bytesOfBits rest) := rfl
    rw [hstep, natBits_bitsVal8, ih rest (by omega)]
    rfl

lemma bytesOfBits_length : ∀ (n : ℕ) (l : List Bool), l.length ≤ 8 * n →
    (bytesOfBits l).length = (l.length + 7) / 8 := by
  intro n
  induction n with
  | zero =>
    intro l h
    have : l = [] := by
      rw [← List.length_eq_zero]
      omega
    subst this
    rfl
  | succ k ih =>
    intro l h
    rcases l with _ | ⟨b0, _ | ⟨b1, _ | ⟨b2, _ | ⟨b3, _ | ⟨b4, _ | ⟨b5, _ |
      ⟨b6, _ | ⟨b7, rest⟩⟩⟩⟩⟩⟩⟩⟩
    · rfl
    · simp [bytesOfBits]
    · simp [bytesOfBits]
    · simp [bytesOfBits]
    · simp [bytesOfBits]
    · simp [bytesOfBits]
    · simp [bytesOfBits]
    · simp [bytesOfBits]
    · have hstep : bytesOfBits (b0 :: b1 :: b2 :: b3 :: b4 :: b5 :: b6 :: b7 :: rest) =
          bitsVal [b0, b1, b2, b3, b4, b5, b6, b7] :: bytesOfBits rest := rfl
      rw [hstep]
      simp only [List.length_cons]
      rw [ih rest (by simp at h; omega)]
      omega

lemma tobytes_length (bs : List Bool) : (tobytes bs).length = (bs.length + 7) / 8 := by
  unfold tobytes
  rw [bytesOfBits_length (padToByte bs).length (padToByte bs) (by omega)]
  simp only [padToByte, List.length_append, List.length_replicate]
  omega

/-! ## Inversion lemmas -/

lemma pehash_bin_inv (cl : List ℕ → ℕ) (exe : PEImage) (B : List Bool)
    (h : pehash_bin cl exe = some B) :
    ∃ a1 a2 a3 a4 bl,
      img_chars_xor exe.Characteristics = some a1 ∧
      sub_chars_xor exe.Machine = some a2 ∧
      stk_size_xor exe.SizeOfStackCommit = some a3 ∧
      hp_size_xor exe.SizeOfHeapCommit = some a4 ∧
      optMap (sectionBlock cl exe.data) exe.sections = some bl ∧
      B = a1 ++ a2 ++ a3 ++ a4 ++ bl.flatten := by
  unfold pehash_bin at h
  cases h1 : img_chars_xor exe.Characteristics with
  | none => rw [h1] at h; simp at h
  | some a1 =>
    rw [h1] at h
    simp only [Option.bind_eq_bind, Option.some_bind] at h
    cases h2 : sub_chars_xor exe.Machine with
    | none => rw [h2] at h; simp at h
    | some a2 =>
      rw [h2] at h
      simp only [Option.bind_eq_bind, Option.some_bind] at h
      cases h3 : stk_size_xor exe.SizeOfStackCommit with
      | none => rw [h3] at h; simp at h
      | some a3 =>
        rw [h3] at h
        simp only [Option.bind_eq_bind, Option.some_bind] at h
        cases h4 : hp_size_xor exe.SizeOfHeapCommit with
        | none => rw [h4] at h; simp at h
        | some a4 =>
          rw [h4] at h
          simp only [Option.bind_eq_bind, Option.some_bind] at h
          rw [sectionsLoop_eq] at h
          cases h5 : optMap (sectionBlock cl exe.data) exe.sections with
          | none => rw [h5] at h; simp at h
          | some bl =>
            rw [h5] at h
            simp only [Option.map_some', Option.some_inj] at h
            exact ⟨a1, a2, a3, a4, bl, rfl, rfl, rfl, rfl, rfl, h.symm⟩

lemma optMap_append_cons {α β : Type} (f : α → Option β) (pre : List α) (x : α)
    (post : List α) (bl : List β)
    (h : optMap f (pre ++ x :: post) = some bl) :
    ∃ bp b bq, optMap f pre = some bp ∧ f x = some b ∧ optMap f post = some bq ∧
      bl = bp ++ b :: bq := by
  induction pre generalizing bl with
  | nil =>
    rw [List.nil_append, optMap_cons] at h
    cases hx : f x with
    | none => rw [hx] at h; simp at h
    | some b =>
      rw [hx] at h
      simp only [Option.some_bind] at h
      cases hq : optMap f post with
      | none => rw [hq] at h; simp at h
      | some bq =>
        rw [hq] at h
        simp only [Option.some_bind, Option.some_inj] at h
        exact ⟨[], b, bq, rfl, rfl, rfl, by rw [← h]; rfl⟩
  | cons a pre ih =>
    rw [List.cons_append, optMap_cons] at h
    cases ha : f a with
    | none => rw [ha] at h; simp at h
    | some b0 =>
      rw [ha] at h
      simp only [Option.some_bind] at h
      cases hr : optMap f (pre ++ x :: post) with
      | none => rw [hr] at h; simp at h
      | some bl2 =>
        rw [hr] at h
        simp only [Option.some_bind, Option.some_inj] at h
        obtain ⟨bp, b, bq, k1, k2, k3, k4⟩ := ih bl2 hr
        refine ⟨b0 :: bp, b, bq, ?_, k2, k3, ?_⟩
        · rw [optMap_cons, ha, k1]
          rfl
        · rw [← h, k4]
          rfl

lemma sectionBlock_inv (cl : List ℕ → ℕ) (data : List ℕ) (s : SectionHeader)
    (blk : List Bool) (h : sectionBlock cl data s = some blk) :
    ∃ sc, sect_chars_xor s.Characteristics = some sc ∧
      blk = sect_va_bits s.VirtualAddress ++ sect_rs_bits s.SizeOfRawData ++ sc ++
        kolmog_bits cl data s := by
  unfold sectionBlock at h
  cases hsc : sect_chars_xor s.Characteristics with
  | none => rw [hsc] at h; simp at h
  | some sc =>
    rw [hsc] at h
    simp only [Option.map_some', Option.some_inj] at h
    exact ⟨sc, rfl, h.symm⟩

lemma sub_chars_xor_isSome (v : ℕ) (hw : v < 2 ^ 16) :
    (sub_chars_xor v).isSome ↔ 2 ^ 8 ≤ v := by
  constructor
  · intro h
    by_contra hlt
    push_neg at hlt
    rw [sub_chars_xor_none v hlt] at h
    simp at h
  · intro h
    rw [sub_chars_xor_eq v h hw]
    simp

/-! ## Claim theorems -/

/-- C1: for every image whose fragments all succeed, the PEhash is the
lowercase-hexadecimal SHA-1 digest of the byte form of the fragments
concatenated in exactly this order: image-characteristics, machine,
stack-commit, heap-commit, then for each section in table order its
virtual-address, raw-size, section-characteristics and entropy fragments
(each section block coming from `sectionBlock`). -/
theorem C1_pehash_is_sha1_of_ordered_fragments (cl : List ℕ → ℕ)
    (exe : PEImage) (a1 a2 a3 a4 : List Bool) (bl : List (List Bool))
    (h1 : img_chars_xor exe.Characteristics = some a1)
    (h2 : sub_chars_xor exe.Machine = some a2)
    (h3 : stk_size_xor exe.SizeOfStackCommit = some a3)
    (h4 : hp_size_xor exe.SizeOfHeapCommit = some a4)
    (h5 : optMap (sectionBlock cl exe.data) exe.sections = some bl) :
    pehash cl exe =
      some (toHex (sha1 (tobytes (a1 ++ a2 ++ a3 ++ a4 ++ bl.flatten)))) := by
  unfold pehash
  rw [pehash_bin_some cl exe a1 a2 a3 a4 bl h1 h2 h3 h4 h5]
  rfl

/-- C1 witness: the sectionless image `exeA` evaluated end to end. -/
theorem C1_witness :
    pehash clEmpty exeA =
      some (toHex (sha1 (tobytes ([false, false, false, true, false, false, false] ++
        [false, false, false, true, false, false, false] ++
        [false, false, false, true, false, false, false, false] ++
        [false, false, false, false, false, false, false, false] ++
        ([] : List (List Bool)).flatten)))) :=
  C1_pehash_is_sha1_of_ordered_fragments clEmpty exeA _ _ _ _ []
    (by decide) (by decide) (by decide) (by decide) (by decide)

/-- C2 counterexample: at characteristics value 0x0102 the fragment the code
produces is 7 bits wide, not the 8-bit xor of the high byte with the low
byte that the claim describes. -/
theorem C2_counterexample :
    (img_chars_xor 0x102).map List.length = some 7 ∧
      img_chars_xor 0x102 ≠
        some (natBits 8 ((0x102 >>> 8) ^^^ (0x102 % 2 ^ 8))) := by
  decide

/-- C2 (amended): for every u16 field value with at least three hexadecimal
digits, both 16-bit folds produce the 7-bit fragment `fold16val`: bits 0–6
xor bits 8–14 of the byte-boundary-padded minimal representation (values
below 0x1000 are shifted one nibble left by the padding); values below
0x100 make the fold fail (see C9). -/
theorem C2_fold16_amended (v : ℕ) (h1 : 2 ^ 8 ≤ v) (h2 : v < 2 ^ 16) :
    img_chars_xor v = some (fold16val v) ∧
      sub_chars_xor v = some (fold16val v) ∧ (fold16val v).length = 7 :=
  ⟨img_chars_xor_eq v h1 h2, sub_chars_xor_eq v h1 h2, fold16val_length v⟩

/-- C2 witness at value 0x0102. -/
theorem C2_witness :
    img_chars_xor 0x102 = some (fold16val 0x102) ∧
      sub_chars_xor 0x102 = some (fold16val 0x102) ∧
      (fold16val 0x102).length = 7 :=
  C2_fold16_amended 0x102 (by decide) (by decide)

/-- C3 counterexample: at stack-commit value 0x10000 the claim's fragment
(xor of the full byte ranges of the zero-padded value) is 0x01, but the code
produces eight zero bits: the least significant bit of every byte range is
dropped by the `[a:b]` slices and a zero pad bit is appended. -/
theorem C3_counterexample :
    stk_size_xor 0x10000 = some (List.replicate 8 false) ∧
      List.replicate 8 false ≠
        natBits 8 (((0x10000 >>> 16) % 2 ^ 8) ^^^ ((0x10000 >>> 8) % 2 ^ 8) ^^^
          (0x10000 % 2 ^ 8)) := by
  decide

/-- C3 (amended): for every u32 value, the stack- and heap-commit folds
produce the 8-bit fragment `fold32val`: bits 8–14 xor bits 16–22 xor
bits 24–30 of the 32-bit left-zero-padded value, followed by one zero pad
bit; bits 15, 23 and 31 never enter the xor. -/
theorem C3_fold32_amended (v : ℕ) (h : v < 2 ^ 32) :
    stk_size_xor v = some (fold32val v) ∧ hp_size_xor v = some (fold32val v) ∧
      (fold32val v).length = 8 :=
  ⟨stk_size_xor_eq v h, hp_size_xor_eq v h, fold32val_length v⟩

/-- C3 witness at value 0x123456. -/
theorem C3_witness :
    stk_size_xor 0x123456 = some (fold32val 0x123456) ∧
      hp_size_xor 0x123456 = some (fold32val 0x123456) ∧
      (fold32val 0x123456).length = 8 :=
  C3_fold32_amended 0x123456 (by decide)

/-- C4 counterexample: at raw-size value 0x1000 the fragment is 23 bits, not
24, and differs from the claim's low-24-bits-of-the-padded-value. -/
theorem C4_counterexample :
    (sect_rs_bits 0x1000).length = 23 ∧
      sect_rs_bits 0x1000 ≠ natBits 24 0x1000 := by
  decide

/-- C4 (amended): for every u32 raw-size value the fragment is the 23-bit
`rsval`: bits 8–30 of the 32-bit word obtained by right-padding the minimal
hexadecimal representation to a byte boundary (which multiplies odd-digit
values by 16) and then left-zero-filling to 32 bits; the top byte and
bit 31 are dropped and no xor is applied. -/
theorem C4_rawsize_amended (v : ℕ) (h : v < 2 ^ 32) :
    sect_rs_bits v = rsval v ∧ (rsval v).length = 23 :=
  ⟨sect_rs_bits_eq v h, rsval_length v⟩

/-- C4 witness at the odd-digit value 0x200 (three hexadecimal digits, so
the effective padded word is 0x00002000, not 0x00000200). -/
theorem C4_witness : sect_rs_bits 0x200 = rsval 0x200 ∧ (rsval 0x200).length = 23 :=
  C4_rawsize_amended 0x200 (by decide)

/-- C5 counterexample: at section characteristics 0x60000020 the fragment is
7 bits, not 8; and two values agreeing on their lower two bytes but
differing in the upper two (0x01000020 and 0x10000020) give different
fragments, so the upper bytes do influence the result. -/
theorem C5_counterexample :
    (sect_chars_xor 0x60000020).map List.length = some 7 ∧
      sect_chars_xor 0x1000020 ≠ sect_chars_xor 0x10000020 := by
  decide

/-- C5 (amended): for every u32 section-characteristics value the fold
returns: an empty fragment for values below 0x10000, a `ValueError`
(`none`) for values in [0x10000, 0xFFFFFF], and otherwise the 7-bit
`scval`: bits 16–22 xor bits 24–30 of the byte-boundary-padded
representation (7-digit values are shifted one nibble left). -/
theorem C5_section_chars_amended (v : ℕ) (h : v < 2 ^ 32) :
    sect_chars_xor v =
      (if v < 2 ^ 16 then some [] else if v < 2 ^ 24 then none
        else some (scval v)) ∧ (scval v).length = 7 :=
  ⟨sect_chars_xor_eq v h, scval_length v⟩

/-- C5 witness at value 0x60000020. -/
theorem C5_witness :
    sect_chars_xor 0x60000020 =
      (if 0x60000020 < 2 ^ 16 then some [] else if 0x60000020 < 2 ^ 24 then none
        else some (scval 0x60000020)) ∧ (scval 0x60000020).length = 7 :=
  C5_section_chars_amended 0x60000020 (by decide)

/-- C6 counterexample: for a section with `SizeOfRawData = 0` the code
appends the first SEVEN bits of the binary32 encoding of 1.0
(`0x3F800000`), not the top eight bits the claim describes. -/
theorem C6_counterexample :
    (kolmog_bits clEmpty [] ⟨0x1000, 0, 0x60000020⟩).length = 7 ∧
      kolmog_bits clEmpty [] ⟨0x1000, 0, 0x60000020⟩ ≠
        (natBits 32 0x3F800000).take 8 := by
  decide

/-- C6 (amended): the entropy fragment is the first seven bits — the sign
bit plus the six most-significant exponent bits — of the binary32 pattern of
`kolmogPair`: the constant 1.0 when `SizeOfRawData = 0`, otherwise the
binary64-rounded quotient `compressedLength(raw) / SizeOfRawData` where
`raw` is the image data from `VirtualAddress + SizeOfRawData` to the end. -/
theorem C6_entropy_amended (cl : List ℕ → ℕ) (data : List ℕ)
    (s : SectionHeader) (hpos : (kolmogPair cl data s).1 ≠ 0) :
    kolmog_bits cl data s =
      (float32bits (kolmogPair cl data s).1 (kolmogPair cl data s).2).take 7 ∧
    kolmog_bits cl data s =
      false :: natBits 6 (((roundSig 24 (kolmogPair cl data s).1
        (kolmogPair cl data s).2).1 + 127).toNat >>> 2) ∧
    (kolmog_bits cl data s).length = 7 :=
  ⟨kolmog_bits_eq cl data s, kolmog_bits_struct cl data s hpos,
    kolmog_bits_length cl data s⟩

/-- C6 witness: a 64-byte section past the end of an empty image, with the
empty-input bz2 length 14. -/
theorem C6_witness :
    kolmog_bits clEmpty [] ⟨0x1000, 64, 0x60000020⟩ =
      (float32bits (kolmogPair clEmpty [] ⟨0x1000, 64, 0x60000020⟩).1
        (kolmogPair clEmpty [] ⟨0x1000, 64, 0x60000020⟩).2).take 7 ∧
    kolmog_bits clEmpty [] ⟨0x1000, 64, 0x60000020⟩ =
      false :: natBits 6 (((roundSig 24
        (kolmogPair clEmpty [] ⟨0x1000, 64, 0x60000020⟩).1
        (kolmogPair clEmpty [] ⟨0x1000, 64, 0x60000020⟩).2).1 + 127).toNat >>> 2) ∧
    (kolmog_bits clEmpty [] ⟨0x1000, 64, 0x60000020⟩).length = 7 :=
  C6_entropy_amended clEmpty [] ⟨0x1000, 64, 0x60000020⟩ (by decide)

/-- C7 counterexample: the one-section image `exeC7` yields an 83-bit
pre-hash buffer — not a multiple of 8 — and an 11-byte SHA-1 input, not the
4 + 4·N = 8 bytes the claim predicts. -/
theorem C7_counterexample :
    (pehash_bin clEmpty exeC7).map List.length = some 83 ∧ ¬ (83 % 8 = 0) ∧
      (pehash_bin clEmpty exeC7).map (fun b => (tobytes b).length) = some 11 ∧
      (11 : ℕ) ≠ 4 + 4 * 1 := by
  refine ⟨by decide, by decide, ?_, by decide⟩
  decide

/-- C7 (amended): for images whose folds succeed, the pre-hash bit length is
30 + Σ over sections of (vaLen + 30 + scLen): 7+7+8+8 scalar bits plus, per
section, the byte-padded virtual-address width, 23 raw-size bits, 0 or 7
characteristics bits and 7 entropy bits; the SHA-1 input byte length is the
ceiling ⌈bits/8⌉, not 4 + 4·N. -/
theorem C7_length_amended (cl : List ℕ → ℕ) (exe : PEImage)
    (hc1 : 2 ^ 8 ≤ exe.Characteristics) (hc2 : exe.Characteristics < 2 ^ 16)
    (hm1 : 2 ^ 8 ≤ exe.Machine) (hm2 : exe.Machine < 2 ^ 16)
    (hs : exe.SizeOfStackCommit < 2 ^ 32) (hh : exe.SizeOfHeapCommit < 2 ^ 32)
    (hsec32 : ∀ s ∈ exe.sections, s.Characteristics < 2 ^ 32)
    (hsec : ∀ s ∈ exe.sections,
      s.Characteristics < 2 ^ 16 ∨ 2 ^ 24 ≤ s.Characteristics) :
    ∃ B, pehash_bin cl exe = some B ∧
      B.length = 30 +
        ((exe.sections.map (fun s => vaLen s.VirtualAddress + 30 + scLen s)).sum) ∧
      (tobytes B).length = (B.length + 7) / 8 := by
  obtain ⟨bl, hbl, hfl⟩ := optMap_sections_length cl exe.data exe.sections hsec32 hsec
  refine ⟨_, pehash_bin_some cl exe _ _ _ _ bl (img_chars_xor_eq _ hc1 hc2)
    (sub_chars_xor_eq _ hm1 hm2) (stk_size_xor_eq _ hs) (hp_size_xor_eq _ hh)
    hbl, ?_, tobytes_length _⟩
  simp only [List.length_append, fold16val_length, fold32val_length, hfl]

/-- C7 witness at the one-section image `exeC7`. -/
theorem C7_witness :
    ∃ B, pehash_bin clEmpty exeC7 = some B ∧
      B.length = 30 +
        ((exeC7.sections.map (fun s => vaLen s.VirtualAddress + 30 + scLen s)).sum) ∧
      (tobytes B).length = (B.length + 7) / 8 :=
  C7_length_amended clEmpty exeC7 (by decide) (by decide) (by decide) (by decide)
    (by decide) (by decide) (by decide) (by decide)

/-- C8 counterexample: the images `exeC8a` and `exeC8b` differ only in one
section's `SizeOfRawData` (2^28 versus 2^28 + 1), a change in the low 24
bits of its zero-padded 32-bit representation, yet both the pre-hash buffer
and the final PEhash coincide: bit 31 is dropped by the `[8:31]` slice and
the binary32 quotients round to the same float, refuting the claim that the
digests must differ. -/
theorem C8_counterexample :
    pehash clEmpty exeC8a = pehash clEmpty exeC8b ∧
      exeC8a.sections.map SectionHeader.SizeOfRawData ≠
        exeC8b.sections.map SectionHeader.SizeOfRawData ∧
      (0x10000000 % 2 ^ 24 : ℕ) ≠ (0x10000001 % 2 ^ 24 : ℕ) := by
  have hrs : sect_rs_bits 0x10000000 = sect_rs_bits 0x10000001 := by decide
  have hkol : kolmog_bits clEmpty dataC8 ⟨0x1000, 0x10000000, 0x60000020⟩ =
      kolmog_bits clEmpty dataC8 ⟨0x1000, 0x10000001, 0x60000020⟩ := by decide
  have hblock : sectionBlock clEmpty dataC8 ⟨0x1000, 0x10000000, 0x60000020⟩ =
      sectionBlock clEmpty dataC8 ⟨0x1000, 0x10000001, 0x60000020⟩ := by
    unfold sectionBlock
    dsimp only
    rw [hrs, hkol]
  have h : pehash_bin clEmpty exeC8a = pehash_bin clEmpty exeC8b := by
    unfold pehash_bin exeC8a exeC8b
    dsimp only
    simp only [sectionsLoop_eq, optMap_cons, optMap_nil, hblock]
  refine ⟨?_, by decide, by decide⟩
  unfold pehash
  rw [h]

/-- C8 (amended): for two images identical except in one section's
`SizeOfRawData`, whenever the two raw-size fragments differ (a change in
bits 8–30 of the effective padded word) the SHA-1 input buffers differ; a
change confined to the dropped bit 31 or to the top byte need not change
the buffer, and the entropy fragment also depends on the size, so only a
buffer-level guarantee holds. -/
theorem C8_sensitivity_amended (cl : List ℕ → ℕ) (chs mch stk hp : ℕ)
    (data : List ℕ) (pre post : List SectionHeader) (va ch s1 s2 : ℕ)
    (e1 : (pehash_bin cl ⟨chs, mch, stk, hp, pre ++ ⟨va, s1, ch⟩ :: post, data⟩).isSome)
    (e2 : (pehash_bin cl ⟨chs, mch, stk, hp, pre ++ ⟨va, s2, ch⟩ :: post, data⟩).isSome)
    (hrs : sect_rs_bits s1 ≠ sect_rs_bits s2) :
    pehash_bin cl ⟨chs, mch, stk, hp, pre ++ ⟨va, s1, ch⟩ :: post, data⟩ ≠
      pehash_bin cl ⟨chs, mch, stk, hp, pre ++ ⟨va, s2, ch⟩ :: post, data⟩ := by
  obtain ⟨B1, hB1⟩ := Option.isSome_iff_exists.mp e1
  obtain ⟨B2, hB2⟩ := Option.isSome_iff_exists.mp e2
  rw [hB1, hB2]
  intro heq
  rw [Option.some_inj] at heq
  obtain ⟨a1, a2, a3, a4, bl1, i1, i2, i3, i4, i5, i6⟩ := pehash_bin_inv _ _ _ hB1
  obtain ⟨c1, c2, c3, c4, bl2, j1, j2, j3, j4, j5, j6⟩ := pehash_bin_inv _ _ _ hB2
  have i1' : img_chars_xor chs = some a1 := i1
  have j1' : img_chars_xor chs = some c1 := j1
  have i2' : sub_chars_xor mch = some a2 := i2
  have j2' : sub_chars_xor mch = some c2 := j2
  have i3' : stk_size_xor stk = some a3 := i3
  have j3' : stk_size_xor stk = some c3 := j3
  have i4' : hp_size_xor hp = some a4 := i4
  have j4' : hp_size_xor hp = some c4 := j4
  have hac1 : a1 = c1 := Option.some_inj.mp (i1'.symm.trans j1')
  have hac2 : a2 = c2 := Option.some_inj.mp (i2'.symm.trans j2')
  have hac3 : a3 = c3 := Option.some_inj.mp (i3'.symm.trans j3')
  have hac4 : a4 = c4 := Option.some_inj.mp (i4'.symm.trans j4')
  have i5' : optMap (sectionBlock cl data) (pre ++ ⟨va, s1, ch⟩ :: post) = some bl1 := i5
  have j5' : optMap (sectionBlock cl data) (pre ++ ⟨va, s2, ch⟩ :: post) = some bl2 := j5
  obtain ⟨bp1, blk1, bq1, p1, p2, p3, p4⟩ := optMap_append_cons _ _ _ _ _ i5'
  obtain ⟨bp2, blk2, bq2, q1, q2, q3, q4⟩ := optMap_append_cons _ _ _ _ _ j5'
  have hbp : bp1 = bp2 := Option.some_inj.mp (p1.symm.trans q1)
  have hbq : bq1 = bq2 := Option.some_inj.mp (p3.symm.trans q3)
  obtain ⟨sc1, r1, r2⟩ := sectionBlock_inv _ _ _ _ p2
  obtain ⟨sc2, t1, t2⟩ := sectionBlock_inv _ _ _ _ q2
  have r1' : sect_chars_xor ch = some sc1 := r1
  have t1' : sect_chars_xor ch = some sc2 := t1
  have hsc : sc1 = sc2 := Option.some_inj.mp (r1'.symm.trans t1')
  subst i6 j6 p4 q4 r2 t2 hac1 hac2 hac3 hac4 hbp hbq hsc
  dsimp only at heq
  simp only [List.flatten_append, List.flatten_cons, List.append_assoc] at heq
  replace heq := List.append_cancel_left heq
  replace heq := List.append_cancel_left heq
  replace heq := List.append_cancel_left heq
  replace heq := List.append_cancel_left heq
  replace heq := List.append_cancel_left heq
  replace heq := List.append_cancel_left heq
  obtain ⟨hr, -⟩ := List.append_inj heq
    (by rw [sect_rs_bits_length, sect_rs_bits_length])
  exact hrs hr

/-- C8 witness: raw sizes 0x10000000 and 0x10000040 differ inside bits 8–30,
so the buffers differ. -/
theorem C8_witness :
    pehash_bin clEmpty ⟨0x10F, 0x14C, 0x1000, 0x100000,
        [] ++ ⟨0x1000, 0x10000000, 0x60000020⟩ :: [], dataC8⟩ ≠
      pehash_bin clEmpty ⟨0x10F, 0x14C, 0x1000, 0x100000,
        [] ++ ⟨0x1000, 0x10000040, 0x60000020⟩ :: [], dataC8⟩ :=
  C8_sensitivity_amended clEmpty 0x10F 0x14C 0x1000 0x100000 dataC8 [] []
    0x1000 0x60000020 0x10000000 0x10000040 (by decide) (by decide) (by decide)

/-- C9 counterexample: characteristics 0xFF is a perfectly valid u16 field
value, yet the fold xors a 7-bit slice with an empty slice, the bitstring
`ValueError` escapes, and no digest is produced. -/
theorem C9_counterexample :
    pehash clEmpty exeC9 = none ∧ exeC9.Characteristics < 2 ^ 16 := by
  constructor
  · unfold pehash
    rw [show pehash_bin clEmpty exeC9 = none from by decide]
    rfl
  · decide

/-- C9 (amended): the folding steps do have failure paths — for fields of
their declared widths, the computation produces a digest exactly when the
file characteristics and machine values are at least 0x100 and every
section's characteristics value is outside [0x10000, 0xFFFFFF]; otherwise a
bitstring `ValueError` aborts the computation with no partial digest. -/
theorem C9_failure_amended (cl : List ℕ → ℕ) (exe : PEImage)
    (hw1 : exe.Characteristics < 2 ^ 16) (hw2 : exe.Machine < 2 ^ 16)
    (hw3 : exe.SizeOfStackCommit < 2 ^ 32) (hw4 : exe.SizeOfHeapCommit < 2 ^ 32)
    (hw5 : ∀ s ∈ exe.sections, s.Characteristics < 2 ^ 32) :
    (pehash cl exe).isSome ↔
      (2 ^ 8 ≤ exe.Characteristics ∧ 2 ^ 8 ≤ exe.Machine ∧
        ∀ s ∈ exe.sections,
          s.Characteristics < 2 ^ 16 ∨ 2 ^ 24 ≤ s.Characteristics) := by
  unfold pehash
  rw [Option.isSome_map']
  rw [pehash_bin_isSome cl exe hw3 hw4, img_chars_xor_isSome _ hw1,
    sub_chars_xor_isSome _ hw2, optMap_isSome]
  constructor
  · rintro ⟨x1, x2, x3⟩
    refine ⟨x1, x2, fun s hs => ?_⟩
    have h := x3 s hs
    rw [sectionBlock_isSome] at h
    exact (sect_chars_xor_isSome _ (hw5 s hs)).mp h
  · rintro ⟨x1, x2, x3⟩
    refine ⟨x1, x2, fun s hs => ?_⟩
    rw [sectionBlock_isSome]
    exact (sect_chars_xor_isSome _ (hw5 s hs)).mpr (x3 s hs)

/-- C9 witness: the success criterion evaluated on the image `exeC7`. -/
theorem C9_witness :
    (pehash clEmpty exeC7).isSome ↔
      (2 ^ 8 ≤ exeC7.Characteristics ∧ 2 ^ 8 ≤ exeC7.Machine ∧
        ∀ s ∈ exeC7.sections,
          s.Characteristics < 2 ^ 16 ∨ 2 ^ 24 ≤ s.Characteristics) :=
  C9_failure_amended clEmpty exeC7 (by decide) (by decide) (by decide)
    (by decide) (by decide)

/-- C10: the `.tobytes()` conversion right before the SHA-1 step right-pads
the accumulated fragment bit string with zero bits to the next byte
boundary: the digest is produced from bytes that decode back to exactly the
fragment string followed by fewer than eight zero bits, so a digest appears
even when the fragment bit length is not a multiple of eight. -/
theorem C10_tobytes_right_pads (cl : List ℕ → ℕ) (exe : PEImage)
    (B : List Bool) (h : pehash_bin cl exe = some B) :
    pehash cl exe = some (toHex (sha1 (tobytes B))) ∧
      bitsOfBytes (tobytes B) =
        B ++ List.replicate ((8 - B.length % 8) % 8) false ∧
      (8 - B.length % 8) % 8 < 8 := by
  refine ⟨?_, ?_, by omega⟩
  · unfold pehash
    rw [h]
    rfl
  · unfold tobytes
    rw [bitsOfBytes_bytesOfBits ((B.length + 7) / 8) (padToByte B) ?_]
    · rfl
    · simp only [padToByte, List.length_append, List.length_replicate]
      omega

/-- C10 witness: the 30-bit buffer of `exeA` is padded with two zero bits. -/
theorem C10_witness :
    pehash clEmpty exeA = some (toHex (sha1 (tobytes binA))) ∧
      bitsOfBytes (tobytes binA) =
        binA ++ List.replicate ((8 - binA.length % 8) % 8) false ∧
      (8 - binA.length % 8) % 8 < 8 :=
  C10_tobytes_right_pads clEmpty exeA binA (by decide)
end PEHash

